import Mathlib

/-!
Shallow embedding of `src/config_parser.py` (class `ConfigParser`), a
converter from a small configuration DSL to a JSON-shaped value tree.

Conventions of the embedding:
* Python strings are modelled as `List Char`; Python character classes
  (`\d`, `\s`, `[a-zA-Z]`, `[a-zA-Z0-9]`) are modelled over their ASCII
  ranges via `Char.isDigit`, `pySpace`, `Char.isAlpha`, `Char.isAlphanum`.
* Python exceptions are modelled by `Except Err`; the inductive `Err`
  retains the structured content of each message, and `kindOf` recovers
  the Python exception class (`SyntaxError` vs `NameError`).
* The mutually recursive pair `parse_value`/`parse_array` terminates
  because every array item is strictly shorter than the array text.  The
  embedding makes this explicit with a fuel parameter, decremented when
  `parse_value` enters the array branch; `Err.outOfFuel` is unreachable
  when the fuel exceeds the input length, and the wrappers `parse_value`,
  `parse_array` supply such fuel.  The recursion is written with `Nat.rec`
  so that every function reduces definitionally on concrete input.
* `self.constants` (a Python dict mutated in document order) is threaded
  explicitly as an association list `CTable`; `bindC` prepends, and
  `lookupC` takes the first (most recent) binding, which implements the
  dict's overwrite-on-rebind behaviour.
-/

namespace Config

/-- Python whitespace for `str.strip` / `\s`, over ASCII. -/
def pySpace (c : Char) : Bool :=
  c = ' ' || c = '\t' || c = '\n' || c = '\x0b' || c = '\x0c' || c = '\r'

/-- `str.strip()`: drop leading and trailing whitespace. -/
def trim (l : List Char) : List Char :=
  ((l.dropWhile pySpace).reverse.dropWhile pySpace).reverse

/-- `s.startswith(c)` for a single character `c`. -/
def beginsWith (c : Char) : List Char → Bool
  | [] => false
  | x :: _ => x = c

/-- `s.startswith(ab)` for a two-character marker `ab`. -/
def begins2 (a b : Char) : List Char → Bool
  | x :: y :: _ => x = a && y = b
  | _ => false

/-- `s.endswith(c)` for a single character `c`. -/
def finishesWith (c : Char) (l : List Char) : Bool :=
  beginsWith c l.reverse

/-- `s.endswith(ab)` for a two-character marker `ab`. -/
def finishes2 (a b : Char) (l : List Char) : Bool :=
  begins2 b a l.reverse

/-- Index of the first occurrence of the two-character pattern `ab`,
as in Python `text.find(ab)` (`none` for `-1`). -/
def findPat2 (a b : Char) : List Char → Option Nat
  | x :: y :: rest =>
    if x = a && y = b then some 0 else (findPat2 a b (y :: rest)).map (· + 1)
  | _ => none

/-- `ab in text` for a two-character pattern. -/
def hasPat (a b : Char) : List Char → Bool
  | x :: y :: rest => (x = a && y = b) || hasPat a b (y :: rest)
  | _ => false

/-- The two-character pattern `ab` occurs at index `i`. -/
def patAt (a b : Char) (l : List Char) (i : Nat) : Prop :=
  ∃ t, l.drop i = a :: b :: t

/-- Values produced by the parser.  Python `float(lit)` is represented by
the decimal literal it was built from; `int(lit)` by its numeric value. -/
inductive Value where
  | int (n : Nat)
  | float (lit : List Char)
  | str (s : List Char)
  | arr (elems : List Value)

/-- The errors the parser can signal, with their structured content. -/
inductive Err where
  | unterminatedComment
  | malformedArray (text : List Char)
  | badConstDecl (line : List Char)
  | badKeyValue (line : List Char)
  | badKeyName (key : List Char)
  | unrecognizedLine (n : Nat) (line : List Char)
  | undefinedConstant (name : List Char)
  | lineError (n : Nat) (cause : Err)
  | outOfFuel
deriving DecidableEq

/-- The Python exception class of an error. -/
inductive ErrKind where
  | syntaxError
  | nameError
deriving DecidableEq

/-- `undefinedConstant` is raised as `NameError`; everything else —
including the per-line wrapper `lineError` — as `SyntaxError`. -/
def kindOf : Err → ErrKind
  | .undefinedConstant _ => .nameError
  | _ => .syntaxError

/-- Is this error the `MalformedArray` syntax error? -/
def isMalfErr : Err → Bool
  | .malformedArray _ => true
  | _ => false

/-- Is the result the `MalformedArray` syntax error? -/
def isMalfE {α : Type} : Except Err α → Bool
  | .error e => isMalfErr e
  | .ok _ => false

/-- Is this value a `Number` (the int/float classification of §4.2)? -/
def isNumV : Value → Bool
  | .int _ => true
  | .float _ => true
  | _ => false

/-- Is the result a `Number`? -/
def isNumRes : Except Err Value → Bool
  | .ok v => isNumV v
  | .error _ => false

/-! ## Comment stripper (`remove_comments`, lines 13-31) -/

/-- The block-comment excision loop of `remove_comments` (lines 14-21):
repeatedly find `(*`, find `*)` strictly after it, and excise the span.
Each excision removes at least four characters, so fuel `l.length + 1`
(supplied by `remove_comments`) never runs out. -/
def removeBlockFuel : Nat → List Char → Except Err (List Char)
  | 0, _ => .error .outOfFuel
  | fuel + 1, l =>
    match findPat2 '(' '*' l with
    | none => .ok l
    | some start =>
      match findPat2 '*' ')' (l.drop (start + 2)) with
      | none => .error .unterminatedComment
      | some k => removeBlockFuel fuel (l.take start ++ l.drop (start + 2 + k + 2))

/-- `text.split('\n')`. -/
def splitNl : List Char → List (List Char)
  | [] => [[]]
  | c :: rest =>
    if c = '\n' then [] :: splitNl rest
    else
      match splitNl rest with
      | [] => [[c]]
      | m :: ms => (c :: m) :: ms

/-- `'\n'.join(lines)`. -/
def joinNl : List (List Char) → List Char
  | [] => []
  | [m] => m
  | m :: ms => m ++ '\n' :: joinNl ms

/-- One iteration of the line-comment pass (lines 26-28): truncate the
line at the first `||`. -/
def truncLine (m : List Char) : List Char :=
  match findPat2 '|' '|' m with
  | none => m
  | some p => m.take p

/-- The line-comment pass of `remove_comments` (lines 23-31). -/
def stripLines (l : List Char) : List Char :=
  joinNl ((splitNl l).map truncLine)

/-- `remove_comments` (lines 13-31): block comments removed from the raw
whole text first, then per-line `||` truncation. -/
def remove_comments (l : List Char) : Except Err (List Char) :=
  (removeBlockFuel (l.length + 1) l).map stripLines

/-! ## Token classifiers (the regexes of `parse_value`) -/

/-- `^[a-zA-Z][a-zA-Z0-9]*$` (line 98, also key and constant names). -/
def isIdent : List Char → Bool
  | [] => false
  | c :: cs => c.isAlpha && cs.all Char.isAlphanum

/-- `^\d*\.\d+$` (line 89): optional digits, a dot, then at least one
digit.  Note the digits before the dot may be absent. -/
def isFloatTok (l : List Char) : Bool :=
  match l.dropWhile Char.isDigit with
  | '.' :: b => !b.isEmpty && b.all Char.isDigit
  | _ => false

/-- `^\d+$` (line 89). -/
def isIntTok (l : List Char) : Bool :=
  !l.isEmpty && l.all Char.isDigit

/-- `int(lit)` for a digit string. -/
def digitsToNat (l : List Char) : Nat :=
  l.foldl (fun acc c => 10 * acc + (c.toNat - '0'.toNat)) 0

/-- `^!\(([a-zA-Z][a-zA-Z0-9]*)\)$` (line 82): extract the constant name
from `!(name)`.  The name is identifier-shaped, so it cannot contain a
closing parenthesis, and this scan is equivalent to the anchored regex. -/
def matchConstRef : List Char → Option (List Char)
  | '!' :: '(' :: rest =>
    if finishesWith ')' rest && isIdent rest.dropLast then some rest.dropLast
    else none
  | _ => none

/-- `parse_number` (lines 33-36). -/
def parse_number (l : List Char) : Value :=
  if l.contains '.' then .float l else .int (digitsToNat l)

/-- `parse_string` (lines 38-41): strip the `[[` `]]` delimiters
(`value[2:-2]`), pass anything else through. -/
def parse_string (l : List Char) : List Char :=
  if begins2 '[' '[' l && finishes2 ']' ']' l then ((l.drop 2).dropLast).dropLast
  else l

/-! ## Array splitter (`parse_array`, lines 43-77) -/

/-- The scanning state of the item loop (lines 52-55): collected items,
the current item, and the two independent nesting counters.  The counters
are integers because `}` or `]` may occur before any opener. -/
structure SpState where
  items : List (List Char)
  cur : List Char
  braces : Int
  brackets : Int

/-- One step of the item loop (lines 57-71): a `.` at brace depth zero
and bracket depth zero flushes the trimmed current item (dropping it when
empty); any other character updates the counters and is appended. -/
def splitStep (st : SpState) (c : Char) : SpState :=
  if c = '.' && st.braces = 0 && st.brackets = 0 then
    { st with
      items := if (trim st.cur).isEmpty then st.items else st.items ++ [trim st.cur]
      cur := [] }
  else
    { items := st.items
      cur := st.cur ++ [c]
      braces :=
        if c = '{' then st.braces + 1
        else if c = '}' then st.braces - 1 else st.braces
      brackets :=
        if c = '[' then st.brackets + 1
        else if c = ']' then st.brackets - 1 else st.brackets }

/-- The item loop run over `content + "."` (line 57): the synthetic
trailing terminator flushes the final item. -/
def splitItems (content : List Char) : List (List Char) :=
  ((content ++ ['.']).foldl splitStep ⟨[], [], 0, 0⟩).items

/-- Constant table: name-to-value bindings in most-recent-first order. -/
abbrev CTable := List (List Char × Value)

/-- `self.constants[name] = value`: bind or overwrite. -/
def bindC (σ : CTable) (name : List Char) (v : Value) : CTable :=
  (name, v) :: σ

/-- `name in self.constants` / `self.constants[name]`. -/
def lookupC : CTable → List Char → Option Value
  | [], _ => none
  | (k, v) :: rest, n => if k = n then some v else lookupC rest n

/-- The body of `parse_array` (lines 43-77) over a given element parser
`pv`: trim, check the `{` `}` delimiters, return `[]` for an empty body,
otherwise split into items and parse each stripped item in order with
fail-fast error propagation. -/
def arrayBody (pv : List Char → Except Err Value) (value : List Char) :
    Except Err Value :=
  if !(beginsWith '{' (trim value) && finishesWith '}' (trim value)) then
    .error (.malformedArray (trim value))
  else if (trim (((trim value).drop 1).dropLast)).isEmpty then .ok (.arr [])
  else
    ((splitItems (trim (((trim value).drop 1).dropLast))).foldl
      (fun acc it => acc.bind fun vs => (pv (trim it)).map fun x => vs ++ [x])
      (Except.ok ([] : List Value))).map .arr

/-- `parse_value` (lines 79-101), with fuel.  Classification order as in
the source: constant reference, number, bracketed string, array, bareword
(the identifier test on line 98 and the fallback on line 101 both return
the token itself).  The array branch is `self.parse_array(value)` with
the recursive element parser at one less fuel; `Nat.rec` keeps the
definition reducible on concrete input. -/
def parse_valueFuel : Nat → CTable → List Char → Except Err Value :=
  @Nat.rec (fun _ => CTable → List Char → Except Err Value)
    (fun _ _ => .error .outOfFuel)
    (fun _ pv σ l =>
      let v := trim l
      match matchConstRef v with
      | some name =>
        match lookupC σ name with
        | some val => .ok val
        | none => .error (.undefinedConstant name)
      | none =>
        if isFloatTok v || isIntTok v then .ok (parse_number v)
        else if begins2 '[' '[' v && finishes2 ']' ']' v then .ok (.str (parse_string v))
        else if beginsWith '{' v && finishesWith '}' v then arrayBody (pv σ) v
        else if isIdent v then .ok (.str v)
        else .ok (.str v))

/-- `parse_array` (lines 43-77), with fuel for its element parser. -/
def parse_arrayFuel (fuel : Nat) (σ : CTable) (l : List Char) :
    Except Err Value :=
  arrayBody (parse_valueFuel fuel σ) l

/-- `parse_value` at always-sufficient fuel. -/
def parse_value (σ : CTable) (l : List Char) : Except Err Value :=
  parse_valueFuel (l.length + 1) σ l

/-- `parse_array` at always-sufficient fuel. -/
def parse_array (σ : CTable) (l : List Char) : Except Err Value :=
  parse_arrayFuel (l.length + 1) σ l

/-! ## Line forms (`parse_assignment`, `parse_key_value`) -/

/-- The anchored regex of `parse_assignment` (line 104),
`^([a-zA-Z][a-zA-Z0-9]*)\s*:=\s*(.+)$`: an identifier, optional spaces,
the literal `:=`, and a nonempty remainder.  The remainder is returned
verbatim; `parse_assignment` strips it, which agrees with the regex
(whose group 2 differs from the raw remainder only in stripped-away
leading whitespace). -/
def matchAssign (l : List Char) : Option (List Char × List Char) :=
  match l with
  | c :: rest =>
    if c.isAlpha then
      let name := c :: rest.takeWhile Char.isAlphanum
      let r2 := (rest.dropWhile Char.isAlphanum).dropWhile pySpace
      match r2 with
      | ':' :: '=' :: r3 => if r3.isEmpty then none else some (name, r3)
      | _ => none
    else none
  | [] => none

/-- `parse_assignment` (lines 103-113): evaluate the right side and bind
the constant. -/
def parse_assignment (σ : CTable) (l : List Char) : Except Err CTable :=
  match matchAssign l with
  | none => .error (.badConstDecl l)
  | some (name, rest) => (parse_value σ (trim rest)).map (bindC σ name)

/-- `line.split('=', 1)`: split at the first `=`. -/
def splitFirstEq : List Char → Option (List Char × List Char)
  | [] => none
  | c :: rest =>
    if c = '=' then some ([], rest)
    else (splitFirstEq rest).map (fun p => (c :: p.1, p.2))

/-- `parse_key_value` (lines 115-128): split at the first `=`, require an
identifier-shaped key, evaluate the right side. -/
def parse_key_value (σ : CTable) (l : List Char) :
    Except Err (List Char × Value) :=
  match splitFirstEq l with
  | none => .error (.badKeyValue l)
  | some (k, vs) =>
    let key := trim k
    if isIdent key then (parse_value σ (trim vs)).map (fun v => (key, v))
    else .error (.badKeyName key)

/-- The result document: top-level keys in most-recent-first order. -/
abbrev Doc := List (List Char × Value)

/-- The per-line dispatch loop of `parse` (lines 136-151): skip blank
lines, `:=` lines update the constant table, `=` lines insert into the
document, anything else is an unrecognized line; every per-line error is
wrapped with the 1-based line number. -/
def parseLines (σ : CTable) (res : Doc) (n : Nat) :
    List (List Char) → Except Err Doc
  | [] => .ok res
  | line :: rest =>
    let t := trim line
    if t.isEmpty then parseLines σ res (n + 1) rest
    else
      let step : Except Err (CTable × Doc) :=
        if hasPat ':' '=' t then (parse_assignment σ t).map (fun σ2 => (σ2, res))
        else if t.contains '=' then
          (parse_key_value σ t).map (fun kv => (σ, kv :: res))
        else .error (.unrecognizedLine n t)
      match step with
      | .error e => .error (.lineError n e)
      | .ok (σ2, res2) => parseLines σ2 res2 (n + 1) rest

/-- `parse` (lines 130-153): strip comments (errors there propagate
unwrapped), then run the line loop from line number 1 with empty
constant table and document. -/
def parse (l : List Char) : Except Err Doc := do
  let r ← remove_comments l
  parseLines [] [] 1 (splitNl r)

/-! ## Lemmas about two-character pattern search -/

theorem patAt_succ_cons {a b c : Char} {l : List Char} {i : Nat} :
    patAt a b (c :: l) (i + 1) ↔ patAt a b l i := by
  simp [patAt]

theorem patAt_le_length {a b : Char} {l : List Char} {i : Nat}
    (h : patAt a b l i) : i + 2 ≤ l.length := by
  obtain ⟨t, ht⟩ := h
  have hlen := congrArg List.length ht
  simp [List.length_drop] at hlen
  omega

theorem findPat2_eq_none {a b : Char} :
    ∀ {l : List Char}, findPat2 a b l = none → ∀ i, ¬ patAt a b l i := by
  intro l
  induction l with
  | nil =>
    intro _ i hp
    obtain ⟨t, ht⟩ := hp
    simp at ht
  | cons x rest ih =>
    cases rest with
    | nil =>
      intro _ i hp
      have := patAt_le_length hp
      simp at this
    | cons y t0 =>
      intro h i hp
      simp only [findPat2] at h
      split at h
      · exact Option.noConfusion h
      · rename_i hxy
        have hnone : findPat2 a b (y :: t0) = none := by
          cases hfind : findPat2 a b (y :: t0) with
          | none => rfl
          | some j => rw [hfind] at h; simp at h
        match i, hp with
        | 0, hp =>
          obtain ⟨t, ht⟩ := hp
          simp only [List.drop_zero, List.cons.injEq] at ht
          simp [ht.1, ht.2.1] at hxy
        | i + 1, hp =>
          exact ih hnone i (patAt_succ_cons.mp hp)

theorem findPat2_eq_some_patAt {a b : Char} :
    ∀ {l : List Char} {i : Nat}, findPat2 a b l = some i → patAt a b l i := by
  intro l
  induction l with
  | nil => intro i h; simp [findPat2] at h
  | cons x rest ih =>
    cases rest with
    | nil => intro i h; simp [findPat2] at h
    | cons y t0 =>
      intro i h
      simp only [findPat2] at h
      split at h
      · rename_i hxy
        simp only [Option.some.injEq] at h
        simp only [Bool.and_eq_true, decide_eq_true_eq] at hxy
        exact h ▸ ⟨t0, by simp [hxy.1, hxy.2]⟩
      · rw [Option.map_eq_some'] at h
        obtain ⟨j, hj, hji⟩ := h
        exact hji ▸ patAt_succ_cons.mpr (ih hj)

theorem findPat2_eq_some_least {a b : Char} :
    ∀ {l : List Char} {i : Nat}, findPat2 a b l = some i →
      ∀ j, j < i → ¬ patAt a b l j := by
  intro l
  induction l with
  | nil => intro i h; simp [findPat2] at h
  | cons x rest ih =>
    cases rest with
    | nil => intro i h; simp [findPat2] at h
    | cons y t0 =>
      intro i h
      simp only [findPat2] at h
      split at h
      · simp only [Option.some.injEq] at h
        subst h
        intro j hj
        exact absurd hj (Nat.not_lt_zero j)
      · rename_i hxy
        rw [Option.map_eq_some'] at h
        obtain ⟨j0, hj0, hji⟩ := h
        intro j hj hp
        match j, hp with
        | 0, hp =>
          obtain ⟨t, ht⟩ := hp
          simp only [List.drop_zero, List.cons.injEq] at ht
          simp [ht.1, ht.2.1] at hxy
        | j + 1, hp =>
          exact ih hj0 j (by omega) (patAt_succ_cons.mp hp)

theorem patAt_findPat2_isSome {a b : Char} {l : List Char} {i : Nat}
    (h : patAt a b l i) : (findPat2 a b l).isSome = true := by
  cases hfind : findPat2 a b l with
  | none => exact absurd h (findPat2_eq_none hfind i)
  | some j => rfl

theorem patAt_drop {a b : Char} {l : List Char} {m j : Nat} :
    patAt a b (l.drop m) j ↔ patAt a b l (m + j) := by
  simp [patAt, List.drop_drop, Nat.add_comm]

theorem hasPat_iff_exists {a b : Char} :
    ∀ {l : List Char}, hasPat a b l = true ↔ ∃ i, patAt a b l i := by
  intro l
  induction l with
  | nil =>
    constructor
    · intro h; simp [hasPat] at h
    · rintro ⟨i, t, ht⟩; simp at ht
  | cons x rest ih =>
    cases rest with
    | nil =>
      constructor
      · intro h; simp [hasPat] at h
      · rintro ⟨i, hp⟩
        have := patAt_le_length hp
        simp at this
    | cons y t0 =>
      simp only [hasPat, Bool.or_eq_true, Bool.and_eq_true, decide_eq_true_eq]
      constructor
      · rintro (⟨hx, hy⟩ | hrest)
        · exact ⟨0, t0, by simp [hx, hy]⟩
        · obtain ⟨i, hp⟩ := ih.mp hrest
          exact ⟨i + 1, patAt_succ_cons.mpr hp⟩
      · rintro ⟨i, hp⟩
        match i, hp with
        | 0, hp =>
          obtain ⟨t, ht⟩ := hp
          simp only [List.drop_zero, List.cons.injEq] at ht
          exact Or.inl ⟨ht.1, ht.2.1⟩
        | i + 1, hp =>
          exact Or.inr (ih.mpr ⟨i, patAt_succ_cons.mp hp⟩)

theorem hasPat_eq_false_iff {a b : Char} {l : List Char} :
    hasPat a b l = false ↔ findPat2 a b l = none := by
  constructor
  · intro h
    cases hfind : findPat2 a b l with
    | none => rfl
    | some i =>
      have := hasPat_iff_exists.mpr ⟨i, findPat2_eq_some_patAt hfind⟩
      rw [h] at this
      exact Bool.noConfusion this
  · intro h
    cases hhas : hasPat a b l with
    | false => rfl
    | true =>
      obtain ⟨i, hp⟩ := hasPat_iff_exists.mp hhas
      exact absurd hp (findPat2_eq_none h i)

/-! ## Lemmas about `trim` -/

theorem dropWhile_head_false {p : Char → Bool} :
    ∀ {l : List Char} {c : Char} {t : List Char},
      List.dropWhile p l = c :: t → p c = false := by
  intro l
  induction l with
  | nil => intro c t h; simp at h
  | cons d rest ih =>
    intro c t h
    by_cases hd : p d
    · rw [List.dropWhile_cons_of_pos hd] at h
      exact ih h
    · rw [List.dropWhile_cons_of_neg hd] at h
      cases h
      simpa using hd

theorem trim_prefix_dropWhile (l : List Char) :
    trim l <+: List.dropWhile pySpace l := by
  have h1 : List.dropWhile pySpace (List.dropWhile pySpace l).reverse
      <:+ (List.dropWhile pySpace l).reverse := List.dropWhile_suffix pySpace
  have h2 : trim l <+: (List.dropWhile pySpace l).reverse.reverse :=
    List.reverse_prefix.mpr h1
  rwa [List.reverse_reverse] at h2

theorem trim_dropWhile (l : List Char) :
    List.dropWhile pySpace (trim l) = trim l := by
  cases hz : trim l with
  | nil => rfl
  | cons c t =>
    have hpre := trim_prefix_dropWhile l
    rw [hz] at hpre
    obtain ⟨s, hs⟩ := hpre
    have hc : pySpace c = false := by
      refine dropWhile_head_false (l := l) (c := c) (t := t ++ s) ?_
      rw [← hs]
      simp
    rw [List.dropWhile_cons_of_neg (by simp [hc])]

theorem trim_reverse_dropWhile (l : List Char) :
    List.dropWhile pySpace (trim l).reverse = (trim l).reverse := by
  unfold trim
  rw [List.reverse_reverse]
  exact List.dropWhile_idempotent ..

theorem trim_idem (l : List Char) : trim (trim l) = trim l := by
  show (((List.dropWhile pySpace (trim l)).reverse).dropWhile pySpace).reverse = trim l
  rw [trim_dropWhile, trim_reverse_dropWhile, List.reverse_reverse]

theorem trim_cons_append {x b : Char} {m : List Char}
    (hx : pySpace x = false) (hb : pySpace b = false) :
    trim (x :: (m ++ [b])) = x :: (m ++ [b]) := by
  unfold trim
  rw [List.dropWhile_cons_of_neg (by simp [hx])]
  have : (x :: (m ++ [b])).reverse = b :: (m.reverse ++ [x]) := by simp
  rw [this, List.dropWhile_cons_of_neg (by simp [hb])]
  simp

theorem trim_of_all_space {l : List Char} (h : l.all pySpace = true) :
    trim l = [] := by
  unfold trim
  have : l.dropWhile pySpace = [] := by
    rw [List.dropWhile_eq_nil_iff]
    intro x hx
    exact List.all_eq_true.mp h x hx
  rw [this]
  rfl

/-! ## Lemmas about the block-comment excision loop -/

theorem take_length_of_le {l : List Char} {n : Nat} (h : n ≤ l.length) :
    (l.take n).length = n := by
  rw [List.length_take]
  exact Nat.min_eq_left h

/-- A successful block pass leaves no `(*` opener in its output. -/
theorem removeBlock_ok_noPat :
    ∀ {fuel : Nat} {l r : List Char}, removeBlockFuel fuel l = .ok r →
      findPat2 '(' '*' r = none := by
  intro fuel
  induction fuel with
  | zero => intro l r h; simp [removeBlockFuel] at h
  | succ n ih =>
    intro l r h
    rw [removeBlockFuel] at h
    split at h
    · rename_i hfind
      cases h
      exact hfind
    · split at h
      · exact Except.noConfusion h
      · exact ih h

/-- If `l` has an opener `(*` at `i` with no closer `*)` beginning at or
after the opener's `*`, the excision loop must end in the unterminated
block comment error (given enough fuel). -/
theorem removeBlock_unclosed :
    ∀ (fuel : Nat) (l : List Char) (i : Nat), l.length < fuel →
      patAt '(' '*' l i → findPat2 '*' ')' (l.drop (i + 1)) = none →
      removeBlockFuel fuel l = .error .unterminatedComment := by
  intro fuel
  induction fuel with
  | zero => intro l i hlen _ _; exact absurd hlen (Nat.not_lt_zero _)
  | succ n ih =>
    intro l i hlen hop hcl
    rw [removeBlockFuel]
    cases hfind : findPat2 '(' '*' l with
    | none =>
      have := patAt_findPat2_isSome hop
      rw [hfind] at this
      exact absurd this (by simp)
    | some start =>
      simp only [hfind]
      have hstart_le : start ≤ i := by
        by_contra hlt
        exact findPat2_eq_some_least hfind i (by omega) hop
      have hstartlen : start + 2 ≤ l.length :=
        patAt_le_length (findPat2_eq_some_patAt hfind)
      cases hinner : findPat2 '*' ')' (l.drop (start + 2)) with
      | none => simp only [hinner]
      | some k =>
        simp only [hinner]
        have hcloser : patAt '*' ')' l (start + 2 + k) :=
          patAt_drop.mp (findPat2_eq_some_patAt hinner)
        have hnoc : ∀ j, i + 1 ≤ j → ¬ patAt '*' ')' l j := by
          intro j hj hp
          have hp2 : patAt '*' ')' (l.drop (i + 1)) (j - (i + 1)) := by
            rw [patAt_drop, show i + 1 + (j - (i + 1)) = j by omega]
            exact hp
          exact findPat2_eq_none hcl _ hp2
        have he_le : start + 2 + k ≤ i := by
          by_contra hgt
          exact hnoc (start + 2 + k) (by omega) hcloser
        have hi_ge : start + 2 + k + 2 ≤ i := by
          rcases Nat.lt_or_ge i (start + 2 + k + 2) with hlt | hge
          · obtain ⟨t1, ht1⟩ := hop
            obtain ⟨t2, ht2⟩ := hcloser
            have hcase : i = start + 2 + k ∨ i = start + 2 + k + 1 := by omega
            cases hcase with
            | inl h0 =>
              rw [h0] at ht1
              have := ht1.symm.trans ht2
              simp at this
            | inr h1 =>
              have hd1 : l.drop i = (l.drop (start + 2 + k)).drop 1 := by
                rw [List.drop_drop, h1]
              rw [ht2] at hd1
              rw [hd1] at ht1
              simp at ht1
          · exact hge
        have hlen2 : start + 2 + k + 2 ≤ l.length := patAt_le_length hcloser
        have hAlen : (l.take start).length = start := take_length_of_le (by omega)
        apply ih
        · rw [List.length_append, hAlen, List.length_drop]
          omega
        · show patAt '(' '*' (l.take start ++ l.drop (start + 2 + k + 2))
            (start + (i - (start + 2 + k + 2)))
          obtain ⟨t1, ht1⟩ := hop
          refine ⟨t1, ?_⟩
          rw [show start + (i - (start + 2 + k + 2)) =
            (l.take start).length + (i - (start + 2 + k + 2)) by rw [hAlen]]
          rw [List.drop_append, List.drop_drop,
            show start + 2 + k + 2 + (i - (start + 2 + k + 2)) = i by omega]
          exact ht1
        · cases hF : findPat2 '*' ')'
            ((l.take start ++ l.drop (start + 2 + k + 2)).drop
              (start + (i - (start + 2 + k + 2)) + 1)) with
          | none => rfl
          | some j =>
            exfalso
            have hp := patAt_drop.mp (findPat2_eq_some_patAt hF)
            obtain ⟨t2, ht2⟩ := hp
            rw [show start + (i - (start + 2 + k + 2)) + 1 + j =
              (l.take start).length + (i - (start + 2 + k + 2) + 1 + j)
              by rw [hAlen]; omega] at ht2
            rw [List.drop_append, List.drop_drop] at ht2
            exact hnoc _ (by omega) ⟨t2, ht2⟩

/-! ## Lemmas about the line-comment pass -/

theorem hasPat_cons_of_ne {a b c : Char} {rest : List Char} (hc : c ≠ a) :
    hasPat a b (c :: rest) = hasPat a b rest := by
  cases rest with
  | nil => simp [hasPat]
  | cons y r => simp [hasPat, hc]

theorem hasPat_cons_false {a b c : Char} {r : List Char}
    (h : hasPat a b (c :: r) = false) : hasPat a b r = false := by
  cases r with
  | nil => rfl
  | cons y t =>
    simp only [hasPat, Bool.or_eq_false_iff] at h
    exact h.2

theorem hasPat_append_false {a b : Char} :
    ∀ {l t : List Char}, hasPat a b (l ++ t) = false → hasPat a b l = false := by
  intro l
  induction l with
  | nil => intro t _; rfl
  | cons x rest ih =>
    intro t h
    cases rest with
    | nil => rfl
    | cons y r =>
      simp only [List.cons_append, hasPat, Bool.or_eq_false_iff] at h ⊢
      refine ⟨h.1, ?_⟩
      have h2 : hasPat a b ((y :: r) ++ t) = false := by
        simp only [List.cons_append]
        exact h.2
      exact ih h2

theorem hasPat_prefix_false {a b : Char} {l₁ l₂ : List Char}
    (hp : l₁ <+: l₂) (h : hasPat a b l₂ = false) : hasPat a b l₁ = false := by
  obtain ⟨t, ht⟩ := hp
  rw [← ht] at h
  exact hasPat_append_false h

theorem hasPat_append_nl {a b : Char} (ha : a ≠ '\n') (hb : b ≠ '\n') :
    ∀ (m rest : List Char),
      hasPat a b (m ++ '\n' :: rest) = (hasPat a b m || hasPat a b rest) := by
  have hnb : decide ('\n' = b) = false := decide_eq_false (Ne.symm hb)
  intro m
  induction m with
  | nil =>
    intro rest
    rw [List.nil_append, hasPat_cons_of_ne (Ne.symm ha)]
    rfl
  | cons x m' ih =>
    intro rest
    cases m' with
    | nil =>
      have h1 : hasPat a b (x :: '\n' :: rest) =
          ((decide (x = a) && decide ('\n' = b)) || hasPat a b ('\n' :: rest)) := rfl
      rw [List.cons_append, List.nil_append, h1, hasPat_cons_of_ne (Ne.symm ha), hnb]
      simp [hasPat]
    | cons y m'' =>
      have e1 : hasPat a b (x :: ((y :: m'') ++ '\n' :: rest)) =
          ((decide (x = a) && decide (y = b)) ||
            hasPat a b ((y :: m'') ++ '\n' :: rest)) := by
        simp only [List.cons_append]
        rfl
      have e2 : hasPat a b (x :: y :: m'') =
          ((decide (x = a) && decide (y = b)) || hasPat a b (y :: m'')) := rfl
      rw [show (x :: y :: m'') ++ '\n' :: rest = x :: ((y :: m'') ++ '\n' :: rest)
          by simp]
      rw [e1, ih rest, e2, Bool.or_assoc]

theorem joinNl_cons (m m2 : List Char) (ms : List (List Char)) :
    joinNl (m :: m2 :: ms) = m ++ '\n' :: joinNl (m2 :: ms) := rfl

theorem joinNl_hasPat_false {a b : Char} (ha : a ≠ '\n') (hb : b ≠ '\n') :
    ∀ {ls : List (List Char)}, (∀ m ∈ ls, hasPat a b m = false) →
      hasPat a b (joinNl ls) = false := by
  intro ls
  induction ls with
  | nil => intro _; rfl
  | cons m ms ih =>
    intro h
    cases ms with
    | nil => exact h m (by simp)
    | cons m2 ms2 =>
      rw [joinNl_cons, hasPat_append_nl ha hb, h m (by simp),
        ih (fun x hx => h x (by simp [hx]))]
      rfl

theorem splitNl_ne_nil (l : List Char) : splitNl l ≠ [] := by
  cases l with
  | nil => simp [splitNl]
  | cons c rest =>
    simp only [splitNl]
    split
    · simp
    · split <;> simp

theorem splitNl_head_prefix :
    ∀ {l m0 : List Char} {ms : List (List Char)},
      splitNl l = m0 :: ms → m0 <+: l := by
  intro l
  induction l with
  | nil =>
    intro m0 ms h
    simp only [splitNl, List.cons.injEq] at h
    exact h.1 ▸ List.nil_prefix
  | cons c rest ih =>
    intro m0 ms h
    simp only [splitNl] at h
    split at h
    · cases h
      exact List.nil_prefix
    · split at h
      · cases h
        exact ⟨rest, rfl⟩
      · rename_i m1 ms1 hrest
        cases h
        obtain ⟨s, hs⟩ := ih hrest
        exact ⟨s, by rw [List.cons_append, hs]⟩

theorem splitNl_no_nl : ∀ {l m : List Char}, m ∈ splitNl l → '\n' ∉ m := by
  intro l
  induction l with
  | nil =>
    intro m hm
    simp only [splitNl, List.mem_singleton] at hm
    simp [hm]
  | cons c rest ih =>
    intro m hm
    simp only [splitNl] at hm
    split at hm
    · rcases List.mem_cons.mp hm with h1 | h1
      · simp [h1]
      · exact ih h1
    · rename_i hc
      split at hm
      · simp only [List.mem_singleton] at hm
        subst hm
        intro hx
        simp only [List.mem_singleton] at hx
        exact hc hx.symm
      · rename_i m1 ms1 hrest
        rcases List.mem_cons.mp hm with h1 | h1
        · subst h1
          intro hx
          rcases List.mem_cons.mp hx with h2 | h2
          · exact hc h2.symm
          · exact ih (hrest ▸ List.mem_cons_self m1 ms1) h2
        · exact ih (by rw [hrest]; exact List.mem_cons_of_mem _ h1)

theorem splitNl_of_no_nl : ∀ {m : List Char}, '\n' ∉ m → splitNl m = [m] := by
  intro m
  induction m with
  | nil => intro _; rfl
  | cons c rest ih =>
    intro h
    have hc : c ≠ '\n' := fun e => h (e ▸ List.mem_cons_self c rest)
    simp only [splitNl]
    rw [if_neg hc, ih (fun hx => h (List.mem_cons_of_mem c hx))]

theorem splitNl_append_nl :
    ∀ {m : List Char} (rest : List Char), '\n' ∉ m →
      splitNl (m ++ '\n' :: rest) = m :: splitNl rest := by
  intro m
  induction m with
  | nil =>
    intro rest _
    simp [splitNl]
  | cons c m' ih =>
    intro rest h
    have hc : c ≠ '\n' := fun e => h (e ▸ List.mem_cons_self c m')
    have hih := ih rest (fun hx => h (List.mem_cons_of_mem c hx))
    simp only [List.cons_append, splitNl, List.append_eq] at hih ⊢
    rw [if_neg hc, hih]

theorem splitNl_joinNl :
    ∀ {ls : List (List Char)}, ls ≠ [] → (∀ m ∈ ls, '\n' ∉ m) →
      splitNl (joinNl ls) = ls := by
  intro ls
  induction ls with
  | nil => intro h _; exact absurd rfl h
  | cons m ms ih =>
    intro _ hno
    cases ms with
    | nil => exact splitNl_of_no_nl (hno m (by simp))
    | cons m2 ms2 =>
      rw [joinNl_cons, splitNl_append_nl _ (hno m (by simp)),
        ih (by simp) (fun x hx => hno x (by simp [hx]))]

theorem splitNl_hasPat_false {a b : Char} :
    ∀ {l : List Char}, hasPat a b l = false →
      ∀ m ∈ splitNl l, hasPat a b m = false := by
  intro l
  induction l with
  | nil =>
    intro _ m hm
    simp only [splitNl, List.mem_singleton] at hm
    subst hm
    rfl
  | cons c rest ih =>
    intro h m hm
    have hrest : hasPat a b rest = false := hasPat_cons_false h
    simp only [splitNl] at hm
    split at hm
    · rcases List.mem_cons.mp hm with h1 | h1
      · subst h1; rfl
      · exact ih hrest m h1
    · split at hm
      · simp only [List.mem_singleton] at hm
        subst hm
        rfl
      · rename_i m1 ms1 hsplit
        rcases List.mem_cons.mp hm with h1 | h1
        · subst h1
          obtain ⟨s, hs⟩ := splitNl_head_prefix hsplit
          exact hasPat_prefix_false ⟨s, by rw [List.cons_append, hs]⟩ h
        · exact ih hrest m (by rw [hsplit]; exact List.mem_cons_of_mem _ h1)

theorem truncLine_hasPat_self_false (m : List Char) :
    hasPat '|' '|' (truncLine m) = false := by
  unfold truncLine
  cases hf : findPat2 '|' '|' m with
  | none =>
    simp only []
    exact hasPat_eq_false_iff.mpr hf
  | some p =>
    simp only []
    cases hh : hasPat '|' '|' (m.take p) with
    | false => rfl
    | true =>
      exfalso
      obtain ⟨j, hp⟩ := hasPat_iff_exists.mp hh
      have hjlen := patAt_le_length hp
      have hlenle : (m.take p).length ≤ p := by
        rw [List.length_take]
        exact Nat.min_le_left ..
      obtain ⟨t, ht⟩ := hp
      rw [List.drop_take] at ht
      have hdj : m.drop j = '|' :: '|' :: (t ++ (m.drop j).drop (p - j)) := by
        conv_lhs => rw [← List.take_append_drop (p - j) (m.drop j)]
        rw [ht]
        simp
      exact findPat2_eq_some_least hf j (by omega) ⟨_, hdj⟩

theorem truncLine_idem (m : List Char) : truncLine (truncLine m) = truncLine m := by
  have h := truncLine_hasPat_self_false m
  rw [hasPat_eq_false_iff] at h
  show (match findPat2 '|' '|' (truncLine m) with
    | none => truncLine m
    | some p => (truncLine m).take p) = truncLine m
  simp only [h]

theorem truncLine_preserves_false {a b : Char} {m : List Char}
    (h : hasPat a b m = false) : hasPat a b (truncLine m) = false := by
  unfold truncLine
  split
  · exact h
  · exact hasPat_prefix_false (List.take_prefix _ m) h

theorem truncLine_no_nl {m : List Char} (h : '\n' ∉ m) : '\n' ∉ truncLine m := by
  unfold truncLine
  split
  · exact h
  · exact fun hx => h (List.take_subset _ _ hx)

theorem stripLines_no_linecomment (x : List Char) :
    hasPat '|' '|' (stripLines x) = false := by
  unfold stripLines
  apply joinNl_hasPat_false (by decide) (by decide)
  intro m hm
  obtain ⟨m0, hm0, rfl⟩ := List.mem_map.mp hm
  exact truncLine_hasPat_self_false m0

theorem stripLines_preserves_false {a b : Char} (ha : a ≠ '\n') (hb : b ≠ '\n')
    {x : List Char} (h : hasPat a b x = false) :
    hasPat a b (stripLines x) = false := by
  unfold stripLines
  apply joinNl_hasPat_false ha hb
  intro m hm
  obtain ⟨m0, hm0, rfl⟩ := List.mem_map.mp hm
  exact truncLine_preserves_false (splitNl_hasPat_false h m0 hm0)

theorem stripLines_idem (x : List Char) :
    stripLines (stripLines x) = stripLines x := by
  have hsplit : splitNl (stripLines x) = (splitNl x).map truncLine := by
    unfold stripLines
    apply splitNl_joinNl
    · simpa using splitNl_ne_nil x
    · intro m hm
      obtain ⟨m0, hm0, rfl⟩ := List.mem_map.mp hm
      exact truncLine_no_nl (splitNl_no_nl hm0)
  show joinNl ((splitNl (stripLines x)).map truncLine) = stripLines x
  rw [hsplit, List.map_map]
  have hcongr : (splitNl x).map (truncLine ∘ truncLine) = (splitNl x).map truncLine :=
    List.map_congr_left (fun m _ => truncLine_idem m)
  rw [hcongr]
  rfl

/-! ## Lemmas about the value grammar -/

theorem parse_valueFuel_zero (σ : CTable) (l : List Char) :
    parse_valueFuel 0 σ l = .error .outOfFuel := rfl

theorem parse_valueFuel_succ (fuel : Nat) (σ : CTable) (l : List Char) :
    parse_valueFuel (fuel + 1) σ l =
      (match matchConstRef (trim l) with
      | some name =>
        match lookupC σ name with
        | some val => .ok val
        | none => .error (.undefinedConstant name)
      | none =>
        if isFloatTok (trim l) || isIntTok (trim l) then .ok (parse_number (trim l))
        else if begins2 '[' '[' (trim l) && finishes2 ']' ']' (trim l) then
          .ok (.str (parse_string (trim l)))
        else if beginsWith '{' (trim l) && finishesWith '}' (trim l) then
          arrayBody (parse_valueFuel fuel σ) (trim l)
        else if isIdent (trim l) then .ok (.str (trim l))
        else .ok (.str (trim l))) := rfl

theorem pv_const {fuel : Nat} {σ : CTable} {l name : List Char}
    (h : matchConstRef (trim l) = some name) :
    parse_valueFuel (fuel + 1) σ l =
      (match lookupC σ name with
      | some val => .ok val
      | none => .error (.undefinedConstant name)) := by
  rw [parse_valueFuel_succ]
  simp only [h]

theorem pv_num {fuel : Nat} {σ : CTable} {l : List Char}
    (h : matchConstRef (trim l) = none)
    (hn : (isFloatTok (trim l) || isIntTok (trim l)) = true) :
    parse_valueFuel (fuel + 1) σ l = .ok (parse_number (trim l)) := by
  rw [parse_valueFuel_succ]
  simp only [h, hn, if_true]

theorem arrayBody_guard_error {pv : List Char → Except Err Value} {l : List Char}
    (h : (beginsWith '{' (trim l) && finishesWith '}' (trim l)) = false) :
    arrayBody pv l = .error (.malformedArray (trim l)) := by
  unfold arrayBody
  rw [h]
  simp

theorem arrayBody_empty {pv : List Char → Except Err Value} {l : List Char}
    (h : (beginsWith '{' (trim l) && finishesWith '}' (trim l)) = true)
    (he : trim (((trim l).drop 1).dropLast) = []) :
    arrayBody pv l = .ok (.arr []) := by
  unfold arrayBody
  rw [h, he]
  simp

theorem isMalfE_map_arr (x : Except Err (List Value)) :
    isMalfE (x.map Value.arr) = isMalfE x := by
  cases x with
  | ok v => rfl
  | error e => rfl

theorem isNumRes_map_arr (x : Except Err (List Value)) :
    isNumRes (x.map Value.arr) = false := by
  cases x with
  | ok v => rfl
  | error e => rfl

theorem foldl_items_notMalf (pv : List Char → Except Err Value)
    (hpv : ∀ it : List Char, isMalfE (pv it) = false) :
    ∀ (items : List (List Char)) (acc : Except Err (List Value)),
      isMalfE acc = false →
      isMalfE (items.foldl
        (fun acc it => acc.bind fun vs => (pv (trim it)).map fun x => vs ++ [x])
        acc) = false := by
  intro items
  induction items with
  | nil => intro acc h; exact h
  | cons it rest ih =>
    intro acc h
    apply ih
    cases acc with
    | error e => exact h
    | ok vs =>
      show isMalfE ((pv (trim it)).map fun x => vs ++ [x]) = false
      cases hres : pv (trim it) with
      | ok v => rfl
      | error e =>
        have hone := hpv (trim it)
        rw [hres] at hone
        exact hone

theorem arrayBody_notMalf (pv : List Char → Except Err Value)
    (hpv : ∀ it, isMalfE (pv it) = false) {l : List Char}
    (h : (beginsWith '{' (trim l) && finishesWith '}' (trim l)) = true) :
    isMalfE (arrayBody pv (trim l)) = false := by
  unfold arrayBody
  rw [trim_idem, h]
  simp only [Bool.not_true]
  rw [if_neg (by simp)]
  split
  · rfl
  · rw [isMalfE_map_arr]
    exact foldl_items_notMalf pv hpv _ _ rfl

theorem arrayBody_notNum (pv : List Char → Except Err Value) (l : List Char) :
    isNumRes (arrayBody pv l) = false := by
  unfold arrayBody
  split
  · rfl
  · split
    · rfl
    · exact isNumRes_map_arr _

/-- `parse_value` can never produce the `MalformedArray` error: the only
call it makes to the array grammar is on its own trimmed token, already
checked for the `{` `}` delimiters. -/
theorem parse_valueFuel_notMalf :
    ∀ (fuel : Nat) (σ : CTable) (l : List Char),
      isMalfE (parse_valueFuel fuel σ l) = false := by
  intro fuel
  induction fuel with
  | zero => intro σ l; rfl
  | succ n ih =>
    intro σ l
    rw [parse_valueFuel_succ]
    split
    · split <;> rfl
    · split
      · rfl
      · split
        · rfl
        · split
          · rename_i hcond
            exact arrayBody_notMalf _ (fun it => ih σ it) hcond
          · split <;> rfl

theorem matchConstRef_build {name : List Char} (h : isIdent name = true) :
    matchConstRef ('!' :: '(' :: (name ++ [')'])) = some name := by
  have h1 : finishesWith ')' (name ++ [')']) = true := by
    simp [finishesWith, beginsWith]
  have h2 : (name ++ [')']).dropLast = name := List.dropLast_concat ..
  show (if finishesWith ')' (name ++ [')']) && isIdent (name ++ [')']).dropLast
    then some (name ++ [')']).dropLast else none) = some name
  rw [h2, h1, h]
  rfl

theorem trim_cref (name : List Char) :
    trim ('!' :: '(' :: (name ++ [')'])) = '!' :: '(' :: (name ++ [')']) := by
  have h := trim_cons_append (x := '!') (b := ')') (m := '(' :: name)
    (by decide) (by decide)
  simpa using h

theorem pv_notNum {σ : CTable} {l : List Char}
    (h : matchConstRef (trim l) = none)
    (hn : (isFloatTok (trim l) || isIntTok (trim l)) = false) :
    ∀ fuel, isNumRes (parse_valueFuel fuel σ l) = false := by
  intro fuel
  cases fuel with
  | zero => rfl
  | succ n =>
    rw [parse_valueFuel_succ]
    simp only [h]
    rw [if_neg (by simp [hn])]
    split
    · rfl
    · split
      · exact arrayBody_notNum _ _
      · split <;> rfl

theorem pv_empty {σ : CTable} {fuel : Nat} {l : List Char} (h : trim l = []) :
    parse_valueFuel (fuel + 1) σ l = .ok (.str []) := by
  rw [parse_valueFuel_succ, h]
  rfl

theorem isIntTok_no_dot {l : List Char} (h : isIntTok l = true) :
    l.contains '.' = false := by
  simp only [isIntTok, Bool.and_eq_true] at h
  cases hc : l.contains '.' with
  | false => rfl
  | true =>
    exfalso
    have hmem : '.' ∈ l := List.elem_iff.mp hc
    have := List.all_eq_true.mp h.2 '.' hmem
    simp at this

theorem isFloatTok_has_dot {l : List Char} (h : isFloatTok l = true) :
    l.contains '.' = true := by
  unfold isFloatTok at h
  split at h
  · rename_i b hdrop
    have hmem : '.' ∈ l :=
      (List.dropWhile_suffix Char.isDigit).subset (hdrop ▸ List.mem_cons_self '.' b)
    exact List.elem_iff.mpr hmem
  · exact Bool.noConfusion h

theorem parse_number_int {l : List Char} (h : isIntTok l = true) :
    parse_number l = .int (digitsToNat l) := by
  unfold parse_number
  rw [isIntTok_no_dot h]
  simp

theorem parse_number_float {l : List Char} (h : isFloatTok l = true) :
    parse_number l = .float l := by
  unfold parse_number
  rw [isFloatTok_has_dot h]
  simp

/-! ## Lemmas about the array item splitter -/

theorem foldl_splitStep_nonspecial :
    ∀ {a : List Char} (items : List (List Char)) (cur : List Char),
      a.all (fun c => !(c = '{' || c = '}' || c = '[' || c = ']')) = true →
      List.foldl splitStep ⟨items, cur, 0, 2⟩ a = ⟨items, cur ++ a, 0, 2⟩ := by
  intro a
  induction a with
  | nil => intro items cur _; simp
  | cons c a2 ih =>
    intro items cur hall
    simp only [List.all_cons, Bool.and_eq_true] at hall
    obtain ⟨hc, hrest⟩ := hall
    simp only [Bool.not_eq_true', Bool.or_eq_false_iff, decide_eq_false_iff_not] at hc
    obtain ⟨⟨⟨h1, h2⟩, h3⟩, h4⟩ := hc
    rw [List.foldl_cons]
    have hstep : splitStep ⟨items, cur, 0, 2⟩ c =
        ⟨items, cur ++ [c], 0, 2⟩ := by
      unfold splitStep
      rw [if_neg (by simp)]
      simp [h1, h2, h3, h4]
    rw [hstep, ih items (cur ++ [c]) hrest]
    simp

/-- A bracketed-string item: since `[` and `]` hold the bracket counter
at two, no interior character — a `.` included — terminates the item. -/
theorem splitItems_string_token (a : List Char)
    (h : a.all (fun c => !(c = '{' || c = '}' || c = '[' || c = ']')) = true) :
    splitItems ('[' :: '[' :: (a ++ [']', ']'])) =
      ['[' :: '[' :: (a ++ [']', ']'])] := by
  unfold splitItems
  have e1 : ('[' :: '[' :: (a ++ [']', ']'])) ++ ['.'] =
      '[' :: '[' :: (a ++ ([']'] ++ ([']'] ++ ['.']))) := by simp
  rw [e1, List.foldl_cons, List.foldl_cons]
  rw [show splitStep (splitStep ⟨[], [], 0, 0⟩ '[') '[' = (⟨[], ['[', '['], 0, 2⟩ : SpState)
    from rfl]
  rw [show a ++ ([']'] ++ ([']'] ++ ['.'])) = a ++ ([']'] ++ ([']'] ++ ['.'])) from rfl,
    List.foldl_append]
  rw [foldl_splitStep_nonspecial [] ['[', '['] h]
  rw [List.foldl_append, List.foldl_append]
  rw [show ∀ X : List Char, List.foldl splitStep (⟨[], X, 0, 2⟩ : SpState) [']'] =
    ⟨[], X ++ [']'], 0, 1⟩ from fun _ => rfl]
  rw [show ∀ X : List Char, List.foldl splitStep (⟨[], X, 0, 1⟩ : SpState) [']'] =
    ⟨[], X ++ [']'], 0, 0⟩ from fun _ => rfl]
  rw [show ∀ X : List Char, List.foldl splitStep (⟨[], X, 0, 0⟩ : SpState) ['.'] =
    ⟨if (trim X).isEmpty then [] else [] ++ [trim X], [], 0, 0⟩ from fun _ => rfl]
  have htrim : trim (((['[', '['] ++ a) ++ [']']) ++ [']']) =
      '[' :: '[' :: (a ++ [']', ']']) := by
    have e : ((['[', '['] ++ a) ++ [']']) ++ [']'] =
        '[' :: (('[' :: (a ++ [']'])) ++ [']']) := by simp
    rw [e, trim_cons_append (by decide) (by decide)]
    simp
  rw [htrim]
  simp

/-! ## Claim theorems -/

/-- Claim C1: `parse_array` splits the array body into items at `.`
characters recognized only at brace-depth zero and bracket-depth zero,
trims each item, discards empty items, appends a synthetic terminator,
and recursively parses each item with `parse_value` (this mechanism is
the embedded definition `splitItems`/`arrayBody`).  Concretely,
`parse_array "{ {1.2.}. {3.4.}. }" = [[1, 2], [3, 4]]` for every constant
table, and a `.` inside a `[[...]]` string holds the bracket counter at
two, so it does not terminate an item: the bracketed token stays a single
item of the split. -/
theorem c1_array_splitting :
    (∀ σ : CTable,
      parse_array σ ['{', ' ', '{', '1', '.', '2', '.', '}', '.', ' ',
          '{', '3', '.', '4', '.', '}', '.', ' ', '}'] =
        .ok (.arr [.arr [.int 1, .int 2], .arr [.int 3, .int 4]])) ∧
    (∀ a : List Char,
      a.all (fun c => !(c = '{' || c = '}' || c = '[' || c = ']')) = true →
      splitItems ('[' :: '[' :: (a ++ [']', ']'])) =
        ['[' :: '[' :: (a ++ [']', ']'])]) :=
  ⟨fun _ => rfl, fun a h => splitItems_string_token a h⟩

theorem c1_array_splitting_witness :
    splitItems ['[', '[', 'a', '.', 'b', ']', ']'] =
      [['[', '[', 'a', '.', 'b', ']', ']']] :=
  c1_array_splitting.2 ['a', '.', 'b'] (by decide)

/-- Claim C2 counterexample: the claim says a token with a leading dot
(such as `.5`) is not classified as a Number, but the code's float
pattern is `^\d*\.\d+$`, whose digits before the dot may be absent: on
input `.5` `parse_value` takes the number branch and returns the float
built from `.5`. -/
theorem c2_number_counterexample :
    parse_value [] ['.', '5'] = .ok (.float ['.', '5']) ∧
      isNumRes (parse_value [] ['.', '5']) = true :=
  ⟨rfl, rfl⟩

/-- Claim C2 amended: `parse_value` classifies a trimmed token (other
than a constant reference) as a Number exactly when it matches `\d+` or
`\d*\.\d+` — no sign, no trailing dot, no exponent, but the digits
BEFORE the dot may be absent, so a leading dot is allowed.  For an all
digit token it returns the integer with the token's numeric value; for a
dotted match it returns the float built from the token; any other token
is not classified as a Number. -/
theorem c2_number_amended :
    ∀ (σ : CTable) (l : List Char), matchConstRef (trim l) = none →
      (isIntTok (trim l) = true →
        parse_value σ l = .ok (.int (digitsToNat (trim l)))) ∧
      (isFloatTok (trim l) = true →
        parse_value σ l = .ok (.float (trim l))) ∧
      ((isFloatTok (trim l) || isIntTok (trim l)) = false →
        isNumRes (parse_value σ l) = false) := by
  intro σ l h
  refine ⟨?_, ?_, ?_⟩
  · intro hint
    show parse_valueFuel (l.length + 1) σ l = _
    rw [pv_num h (by simp [hint]), parse_number_int hint]
  · intro hfl
    show parse_valueFuel (l.length + 1) σ l = _
    rw [pv_num h (by simp [hfl]), parse_number_float hfl]
  · intro hn
    exact pv_notNum h hn (l.length + 1)

theorem c2_number_amended_witness :
    parse_value [] ['4', '2'] = .ok (.int (digitsToNat (trim ['4', '2']))) ∧
      parse_value [] ['1', '.', '5'] = .ok (.float (trim ['1', '.', '5'])) :=
  ⟨(c2_number_amended [] ['4', '2'] (by decide)).1 (by decide),
   (c2_number_amended [] ['1', '.', '5'] (by decide)).2.1 (by decide)⟩

/-- Claim C3: constant resolution is a single forward pass.
`parse_value` on `!(name)` returns the value bound to `name` in the
table at that point of the scan and fails with `UndefinedConstant` if
and only if the lookup finds nothing; binding prepends so a rebinding
overwrites (shadows) the previous value; and end to end, a reference on
line 1 is not satisfied by a binding on line 2. -/
theorem c3_constant_resolution :
    (∀ (σ : CTable) (name : List Char), isIdent name = true →
      parse_value σ ('!' :: '(' :: (name ++ [')'])) =
        (match lookupC σ name with
        | some v => .ok v
        | none => .error (.undefinedConstant name))) ∧
    (∀ (σ : CTable) (name : List Char) (v : Value),
      lookupC (bindC σ name v) name = some v) ∧
    parse ("v = !(x)\nx := 1".toList) =
      .error (.lineError 1 (.undefinedConstant ['x'])) := by
  refine ⟨?_, ?_, ?_⟩
  · intro σ name hid
    show parse_valueFuel (_ + 1) σ _ = _
    rw [pv_const (by rw [trim_cref]; exact matchConstRef_build hid)]
  · intro σ name v
    simp [lookupC, bindC]
  · rfl

theorem c3_constant_resolution_witness :
    parse_value [] "!(x)".toList = .error (.undefinedConstant ['x']) :=
  c3_constant_resolution.1 [] ['x'] (by decide)

/-- Claim C4 counterexample: the claim says the `NameError` kind
(`UndefinedConstant`) is observable to the caller of `parse`, but
`parse` re-wraps every per-line exception — the `NameError` included —
into a `SyntaxError` carrying the line number, so the caller observes a
`SyntaxError` (whose message embeds the cause), not a `NameError`. -/
theorem c4_kind_counterexample :
    parse ("v = !(missing)".toList) =
      .error (.lineError 1 (.undefinedConstant "missing".toList)) ∧
    kindOf (.lineError 1 (.undefinedConstant "missing".toList)) =
      .syntaxError :=
  ⟨rfl, rfl⟩

/-- Claim C4 amended: `parse` on `v = !(missing)` does fail, and the
failure's structured cause is the `UndefinedConstant` error for
`missing` (itself of `NameError` kind) — but it reaches the caller
wrapped in the line-level `SyntaxError`, so only the message, not the
exception kind, reveals the undefined constant. -/
theorem c4_kind_amended :
    parse ("v = !(missing)".toList) =
      .error (.lineError 1 (.undefinedConstant "missing".toList)) ∧
    kindOf (.undefinedConstant "missing".toList) = .nameError :=
  ⟨rfl, rfl⟩

/-- Claim C5: `remove_comments` fails with `UnterminatedComment`
whenever the raw input contains an opening marker `(*` at some position
`i` with no closing marker `*)` beginning at or after the opener's `*`
(position `i + 1`).  The statement quantifies over the whole raw text
with no condition on `||`, so the check precedes line-comment
truncation: a `||` on the same or an earlier line does not prevent the
error (see the witness). -/
theorem c5_unterminated_comment (l : List Char) (i : Nat)
    (hop : patAt '(' '*' l i)
    (hcl : findPat2 '*' ')' (l.drop (i + 1)) = none) :
    remove_comments l = .error .unterminatedComment := by
  unfold remove_comments
  rw [removeBlock_unclosed (l.length + 1) l i (by omega) hop hcl]
  rfl

theorem c5_unterminated_comment_witness :
    remove_comments "a || b (* c".toList = .error .unterminatedComment := by
  refine c5_unterminated_comment _ 7 ⟨[' ', 'c'], ?_⟩ ?_ <;> rfl

/-- Claim C6: `parse_array` fails with `MalformedArray` whenever the
trimmed input does not both start with `{` and end with `}`; when it
does and the body is empty or whitespace-only, the result is the empty
sequence. -/
theorem c6_array_guard :
    (∀ (σ : CTable) (l : List Char),
      (beginsWith '{' (trim l) && finishesWith '}' (trim l)) = false →
      parse_array σ l = .error (.malformedArray (trim l))) ∧
    (∀ (σ : CTable) (l : List Char),
      (beginsWith '{' (trim l) && finishesWith '}' (trim l)) = true →
      trim (((trim l).drop 1).dropLast) = [] →
      parse_array σ l = .ok (.arr [])) := by
  constructor
  · intro σ l h
    show arrayBody (parse_valueFuel (l.length + 1) σ) l = _
    exact arrayBody_guard_error h
  · intro σ l h he
    show arrayBody (parse_valueFuel (l.length + 1) σ) l = _
    exact arrayBody_empty h he

theorem c6_array_guard_witness :
    parse_array [] "abc".toList = .error (.malformedArray "abc".toList) ∧
      parse_array [] ['{', ' ', '}'] = .ok (.arr []) :=
  ⟨c6_array_guard.1 [] _ (by decide), c6_array_guard.2 [] _ (by decide) (by decide)⟩

/-- Claim C7: `remove_comments` is idempotent — whenever it succeeds,
its output contains no `(*` opener and no `||` marker, and running
`remove_comments` on that output returns it unchanged. -/
theorem c7_remove_comments_idempotent (l r : List Char)
    (h : remove_comments l = .ok r) :
    hasPat '(' '*' r = false ∧ hasPat '|' '|' r = false ∧
      remove_comments r = .ok r := by
  unfold remove_comments at h
  cases hb : removeBlockFuel (l.length + 1) l with
  | error e => rw [hb] at h; exact Except.noConfusion h
  | ok r0 =>
    rw [hb] at h
    rw [show Except.map stripLines (Except.ok r0) =
      Except.ok (stripLines r0) from rfl] at h
    injection h with h
    subst h
    have hnoOpen : hasPat '(' '*' (stripLines r0) = false :=
      stripLines_preserves_false (by decide) (by decide)
        (hasPat_eq_false_iff.mpr (removeBlock_ok_noPat hb))
    refine ⟨hnoOpen, stripLines_no_linecomment r0, ?_⟩
    have hF : findPat2 '(' '*' (stripLines r0) = none :=
      hasPat_eq_false_iff.mp hnoOpen
    unfold remove_comments
    rw [show removeBlockFuel ((stripLines r0).length + 1) (stripLines r0) =
      .ok (stripLines r0) by rw [removeBlockFuel]; simp only [hF]]
    rw [show Except.map stripLines (Except.ok (stripLines r0)) =
      Except.ok (stripLines (stripLines r0)) from rfl, stripLines_idem]

theorem c7_remove_comments_idempotent_witness :
    remove_comments "a (* x *) b || c\nd".toList = .ok "a  b \nd".toList ∧
      remove_comments "a  b \nd".toList = .ok "a  b \nd".toList :=
  ⟨rfl, (c7_remove_comments_idempotent "a (* x *) b || c\nd".toList
    "a  b \nd".toList rfl).2.2⟩

/-- Claim C8: a floating-point literal cannot occur as an array element:
the splitter treats the depth-zero `.` inside `1.2` as an item
terminator, so `parse_array "{ 1.2. }"` returns the two integers
`[1, 2]`, not the float `1.2`. -/
theorem c8_float_literal_split :
    ∀ σ : CTable, parse_array σ ['{', ' ', '1', '.', '2', '.', ' ', '}'] =
      .ok (.arr [.int 1, .int 2]) :=
  fun _ => rfl

/-- Claim C9: `parse_value` on an empty or whitespace-only string
returns the empty bareword string without failing, and the document
line `v =` (nothing after the `=`) succeeds and inserts `v ↦ ""`. -/
theorem c9_empty_value :
    (∀ (σ : CTable) (l : List Char), l.all pySpace = true →
      parse_value σ l = .ok (.str [])) ∧
    parse ("v =".toList) = .ok [("v".toList, .str [])] := by
  constructor
  · intro σ l h
    show parse_valueFuel (l.length + 1) σ l = _
    exact pv_empty (trim_of_all_space h)
  · rfl

theorem c9_empty_value_witness :
    parse_value [] [' ', ' '] = .ok (.str []) :=
  c9_empty_value.1 [] [' ', ' '] (by decide)

/-- Claim C10: through `parse_value`, the `MalformedArray` guard of
`parse_array` is unreachable: `parse_value` never produces that error at
any fuel, and on any trimmed token that starts with `{` and ends with
`}` — exactly the condition under which `parse_value` invokes
`parse_array` — `parse_array` cannot produce it either. -/
theorem c10_malformed_unreachable :
    (∀ (fuel : Nat) (σ : CTable) (l : List Char),
      isMalfE (parse_valueFuel fuel σ l) = false) ∧
    (∀ (σ : CTable) (l : List Char),
      (beginsWith '{' (trim l) && finishesWith '}' (trim l)) = true →
      isMalfE (parse_array σ (trim l)) = false) := by
  constructor
  · exact parse_valueFuel_notMalf
  · intro σ l h
    show isMalfE
      (arrayBody (parse_valueFuel ((trim l).length + 1) σ) (trim l)) = false
    exact arrayBody_notMalf _ (fun it => parse_valueFuel_notMalf _ σ it) h

theorem c10_malformed_unreachable_witness :
    isMalfE (parse_array [] (trim ['{', '}'])) = false :=
  c10_malformed_unreachable.2 [] ['{', '}'] (by decide)

end Config
